import Mathlib

set_option maxRecDepth 8000
set_option maxHeartbeats 1000000

/-!
Shallow embedding of the scoring core of thefuzz.

Source files embedded:
  src/thefuzz/_fuzz.py  (pure-Python scoring core)
  src/thefuzz/fuzz.py   (public API; the pure-Python backend branch)

Parts of the repository the sources use that are not shipped under src/
(the utils helpers and the SequenceAligner behind difflib.SequenceMatcher)
are modelled from the spec, as marked on each definition.

Modelling conventions:
  * Python strings are List Char.
  * Python floats are exact rationals (Rat); integer scores are Int.
  * Python round (round half to even, spec section 3 and 9) is intr below.
-/

/-- Modelled from the spec: utils.intr, which converts a fractional score to
an integer score. Sections 3 and 9 pin the rounding rule to round half to
even (Python round). -/
def intr (q : ℚ) : ℤ :=
  if q - q.floor < 1/2 then q.floor
  else if 1/2 < q - q.floor then q.floor + 1
  else if q.floor % 2 = 0 then q.floor else q.floor + 1

/-! ## SequenceAligner

Modelled from the spec: section 4.2 describes the aligner the code delegates
to (difflib.SequenceMatcher for the pure-Python path): the longest common
contiguous run, ties broken by earliest start in the first sequence and then
earliest in the second, recursion on the prefix pair and the suffix pair, a
terminating zero-length block, merging of adjacent blocks, and the base
ratio 2M/T. The repeated-symbol noise heuristic mentioned in section 4.2
only activates on sequences of about 200 symbols or more and is not
modelled; all concrete inputs used below are far shorter. -/

/-- Length of the common initial run of two character sequences. -/
def commonRun : List Char → List Char → Nat
  | x :: xs, y :: ys => if x = y then commonRun xs ys + 1 else 0
  | _, _ => 0

/-- Inner scan of find_longest_match: candidate second-sequence positions in
ascending order, keeping a candidate only when strictly longer. -/
def scanJ (a b : List Char) (i : Nat) : List Nat → Nat × Nat × Nat → Nat × Nat × Nat
  | [], best => best
  | j :: js, best =>
      scanJ a b i js
        (if best.2.2 < commonRun (a.drop i) (b.drop j) then
          (i, j, commonRun (a.drop i) (b.drop j)) else best)

/-- Outer scan of find_longest_match: first-sequence positions in ascending
order. -/
def scanI (a b : List Char) : List Nat → Nat × Nat × Nat → Nat × Nat × Nat
  | [], best => best
  | i :: is, best => scanI a b is (scanJ a b i (List.range b.length) best)

/-- Modelled from the spec: the longest common contiguous run of section 4.2,
with ties broken by earliest starting position in the first sequence, then
earliest in the second; (0, 0, 0) when no common run exists. -/
def find_longest_match (a b : List Char) : Nat × Nat × Nat :=
  scanI a b (List.range a.length) (0, 0, 0)

/-- A scan result is either the initial sentinel or an actual scanned
candidate, so its length field is the true run length at its positions. -/
def soundBest (a b : List Char) (t : Nat × Nat × Nat) : Prop :=
  t = (0, 0, 0) ∨ t.2.2 = commonRun (a.drop t.1) (b.drop t.2.1)

/-- Fuel-indexed recursive block decomposition of section 4.2 step 2: find
the best match, recurse on the prefix pair and on the suffix pair, and
rebase the suffix blocks. The fuel only serves structural recursion; the
length of the first sequence is always a sufficient fuel. -/
def rawBlocksN : Nat → List Char → List Char → List (Nat × Nat × Nat)
  | 0, _, _ => []
  | n + 1, a, b =>
      if (find_longest_match a b).2.2 = 0 then []
      else
        rawBlocksN n (a.take (find_longest_match a b).1)
            (b.take (find_longest_match a b).2.1) ++
        find_longest_match a b ::
          (rawBlocksN n (a.drop ((find_longest_match a b).1 + (find_longest_match a b).2.2))
              (b.drop ((find_longest_match a b).2.1 + (find_longest_match a b).2.2))).map
            (fun t => (t.1 + ((find_longest_match a b).1 + (find_longest_match a b).2.2),
                       t.2.1 + ((find_longest_match a b).2.1 + (find_longest_match a b).2.2),
                       t.2.2))

/-- Modelled from the spec: the sorted list of matching blocks produced by
the recursion of section 4.2 (before merging and before the terminating
block). -/
def rawBlocks (a b : List Char) : List (Nat × Nat × Nat) :=
  rawBlocksN a.length a b

/-- Modelled from the spec: difflib's merging of adjacent matching blocks in
get_matching_blocks (second pass of the reference aligner): consecutive
blocks that touch in both sequences are coalesced. -/
def mergeBlocks : Nat × Nat × Nat → List (Nat × Nat × Nat) → List (Nat × Nat × Nat)
  | acc, [] => if acc.2.2 = 0 then [] else [acc]
  | acc, blk :: rest =>
      if acc.1 + acc.2.2 = blk.1 ∧ acc.2.1 + acc.2.2 = blk.2.1 then
        mergeBlocks (acc.1, acc.2.1, acc.2.2 + blk.2.2) rest
      else if acc.2.2 = 0 then mergeBlocks blk rest
      else acc :: mergeBlocks blk rest

/-- Modelled from the spec: SequenceMatcher.get_matching_blocks, the merged
block list followed by the terminating zero-length block (len(a), len(b), 0). -/
def get_matching_blocks (a b : List Char) : List (Nat × Nat × Nat) :=
  mergeBlocks (0, 0, 0) (rawBlocks a b) ++ [(a.length, b.length, 0)]

/-- Total number of matched characters in a block list. -/
def sumK (l : List (Nat × Nat × Nat)) : Nat := (l.map (fun t => t.2.2)).sum

/-- Modelled from the spec: the base ratio 2M/T of section 4.2 step 4
(SequenceMatcher.ratio), with ratio 1 when both sequences are empty. -/
def sm_ratio (a b : List Char) : ℚ :=
  if a.length + b.length = 0 then 1
  else (2 * (sumK (get_matching_blocks a b) : ℚ)) / ((a.length + b.length : ℕ) : ℚ)

/-! ## String helpers used by the token-based scorers

These model the generic Python string operations the source uses:
str.split(), sorted(), space-join, str.strip(). -/

def isWs (c : Char) : Bool := c.isWhitespace

/-- Accumulator-based splitter; cur holds the current token reversed. -/
def splitWsA : List Char → List Char → List (List Char)
  | [], cur => if cur.isEmpty then [] else [cur.reverse]
  | c :: rest, cur =>
      if isWs c then
        if cur.isEmpty then splitWsA rest [] else cur.reverse :: splitWsA rest []
      else splitWsA rest (c :: cur)

/-- Python str.split() with no argument: whitespace-delimited tokens,
empty tokens discarded. -/
def splitWs (s : List Char) : List (List Char) := splitWsA s []

/-- Code-point lexicographic order on strings (Python string comparison). -/
def strLe : List Char → List Char → Bool
  | [], _ => true
  | _ :: _, [] => false
  | x :: xs, y :: ys =>
      if x.toNat < y.toNat then true
      else if y.toNat < x.toNat then false
      else strLe xs ys

def insStr (x : List Char) : List (List Char) → List (List Char)
  | [] => [x]
  | y :: ys => if strLe x y then x :: y :: ys else y :: insStr x ys

/-- Python sorted() on a list of strings: stable insertion sort under
code-point order. -/
def sortStrs : List (List Char) → List (List Char)
  | [] => []
  | x :: xs => insStr x (sortStrs xs)

/-- Python join with a single space separator. -/
def joinSp : List (List Char) → List Char
  | [] => []
  | [t] => t
  | t :: ts => t ++ ' ' :: joinSp ts

def stripL (s : List Char) : List Char := s.dropWhile isWs

/-- Python str.strip(): drop leading and trailing whitespace. -/
def strip (s : List Char) : List Char := (stripL ((stripL s).reverse)).reverse

/-- The candidate score computed inside the loop of _fuzz.partial_ratio for
one matching block: the window of the longer string starting at long_start
(the Nat subtraction blk.2.1 - blk.1 is exactly the source's clamped
long_start) with the length of the shorter string, scored against the
shorter string. -/
def srcCand (shorter longer : List Char) (blk : Nat × Nat × Nat) : ℚ :=
  sm_ratio shorter ((longer.drop (blk.2.1 - blk.1)).take shorter.length)

/-! ## The pure-Python scoring module (src/thefuzz/_fuzz.py) -/

namespace TF

/-- thefuzz _fuzz.ratio. The decorators utils.check_for_equivalence and
utils.check_empty_string are not under src/ and are modelled from the spec
(section 3 invariants, section 9: an ordered short-circuiting guard
pipeline, equivalence first); utils.make_type_consistent is the identity on
a pair of strings. -/
def ratio (s1 s2 : List Char) : ℤ :=
  if s1 = s2 then 100
  else if s1.length = 0 ∨ s2.length = 0 then 0
  else intr (100 * sm_ratio s1 s2)

/-- Python max over a list of floats; none models the ValueError raised on
an empty list. -/
def maxQ : List ℚ → Option ℚ
  | [] => none
  | x :: xs => some (xs.foldl max x)

/-- Loop of _fuzz.partial_ratio over the matching blocks: score the window
of the longer string aligned on each block (the Nat subtraction blk.2.1 -
blk.1 is exactly the source's clamped long_start), return 100 as soon as a
candidate fractional ratio exceeds 0.995, otherwise round the maximum
accumulated candidate. -/
def prLoop (shorter longer : List Char) :
    List (Nat × Nat × Nat) → List ℚ → Option ℤ
  | [], scores =>
      match maxQ scores with
      | none => none
      | some m => some (intr (100 * m))
  | blk :: rest, scores =>
      if (199/200 : ℚ) < srcCand shorter longer blk then some 100
      else prLoop shorter longer rest (scores ++ [srcCand shorter longer blk])

/-- thefuzz _fuzz.partial_ratio, with the same spec-modelled decorators as
ratio. The shorter-or-equal-length input is aligned against windows of the
other. none models the ValueError of max on an empty score list. -/
def partial_ratio_opt (s1 s2 : List Char) : Option ℤ :=
  if s1 = s2 then some 100
  else if s1.length = 0 ∨ s2.length = 0 then some 0
  else if s1.length ≤ s2.length then
    prLoop s1 s2 (get_matching_blocks s1 s2) []
  else
    prLoop s2 s1 (get_matching_blocks s2 s1) []

/-- partial_ratio as a total function (the default 0 is never used: see the
totality theorem for claim C10). -/
def partial_ratio (s1 s2 : List Char) : ℤ := (partial_ratio_opt s1 s2).getD 0

/-- thefuzz _fuzz._sort_tokens: split, sort, rejoin with spaces, strip. -/
def sort_tokens (s : List Char) : List Char := strip (joinSp (sortStrs (splitWs s)))

/-- thefuzz _fuzz._token_sort. -/
def token_sort (s1 s2 : List Char) (p : Bool) : ℤ :=
  if p then partial_ratio (sort_tokens s1) (sort_tokens s2)
  else ratio (sort_tokens s1) (sort_tokens s2)

/-- thefuzz _fuzz.token_sort_ratio (processor argument unused by the
source). -/
def token_sort_ratio (s1 s2 : List Char) : ℤ := token_sort s1 s2 false

/-- thefuzz _fuzz.partial_token_sort_ratio. -/
def partial_token_sort_ratio (s1 s2 : List Char) : ℤ := token_sort s1 s2 true

/-- thefuzz _fuzz._token_set. utils.validate_string is not under src/ and
is modelled from the spec: valid means nonzero length. Python sets of
tokens are modelled by deduplicated token lists; the set operations are
membership filters, sorted before joining exactly as the source does. -/
def token_set (s1 s2 : List Char) (p : Bool) : ℤ :=
  if s1 = s2 then 100
  else if s1.length = 0 then 0
  else if s2.length = 0 then 0
  else
    let tokens1 := (splitWs s1).dedup
    let tokens2 := (splitWs s2).dedup
    let sorted_sect := joinSp (sortStrs (tokens1.filter (fun t => t ∈ tokens2)))
    let sorted_1to2 := joinSp (sortStrs (tokens1.filter (fun t => t ∉ tokens2)))
    let sorted_2to1 := joinSp (sortStrs (tokens2.filter (fun t => t ∉ tokens1)))
    let c12 := strip (sorted_sect ++ ' ' :: sorted_1to2)
    let c21 := strip (sorted_sect ++ ' ' :: sorted_2to1)
    let ss := strip sorted_sect
    if p then
      max (partial_ratio ss c12) (max (partial_ratio ss c21) (partial_ratio c12 c21))
    else
      max (ratio ss c12) (max (ratio ss c21) (ratio c12 c21))

/-- thefuzz _fuzz.token_set_ratio. -/
def token_set_ratio (s1 s2 : List Char) : ℤ := token_set s1 s2 false

/-- thefuzz _fuzz.partial_token_set_ratio. -/
def partial_token_set_ratio (s1 s2 : List Char) : ℤ := token_set s1 s2 true

/-- len_ratio of _fuzz.WRatio: longer length over shorter length. -/
def lenRatio (s1 s2 : List Char) : ℚ :=
  ((max s1.length s2.length : ℕ) : ℚ) / ((min s1.length s2.length : ℕ) : ℚ)

/-- thefuzz _fuzz.WRatio. The try_partial flag of the source is inlined as
the branch condition (it is False exactly when len_ratio < 1.5);
unbase_scale is 0.95, partial_scale is 0.9 replaced by 0.6 when len_ratio
exceeds 8. -/
def WRatio (s1 s2 : List Char) : ℤ :=
  if s1.length = 0 then 0
  else if s2.length = 0 then 0
  else if ¬(lenRatio s1 s2 < 3/2) then
    intr (max ((ratio s1 s2 : ℚ))
      (max ((partial_ratio s1 s2 : ℚ) * (if 8 < lenRatio s1 s2 then 3/5 else 9/10))
        (max ((partial_token_sort_ratio s1 s2 : ℚ) * (19/20) *
                (if 8 < lenRatio s1 s2 then 3/5 else 9/10))
             ((partial_token_set_ratio s1 s2 : ℚ) * (19/20) *
                (if 8 < lenRatio s1 s2 then 3/5 else 9/10)))))
  else
    intr (max ((ratio s1 s2 : ℚ))
      (max ((token_sort_ratio s1 s2 : ℚ) * (19/20))
           ((token_set_ratio s1 s2 : ℚ) * (19/20))))

end TF

/-! ## Preprocessing (utils.full_process) and the public API
(src/thefuzz/fuzz.py, pure-Python backend branch) -/

/-- Collapse runs of whitespace into single spaces. -/
def collapseWs : List Char → List Char
  | [] => []
  | [c] => if isWs c then [' '] else [c]
  | c :: d :: rest =>
      if isWs c && isWs d then collapseWs (d :: rest)
      else (if isWs c then ' ' else c) :: collapseWs (d :: rest)

/-- Modelled from the spec: utils.full_process on a present string
(section 4.1). Coercion is the identity on a string; force_ascii drops
characters outside the ASCII range; non-alphanumeric characters are
replaced by spaces; whitespace runs are collapsed; the result is trimmed
and lowercased. -/
def processStr (s : List Char) (force_ascii : Bool) : List Char :=
  let s1 := if force_ascii then s.filter (fun c => c.toNat < 128) else s
  let s2 := s1.map (fun c => if c.isAlphanum then c.toLower else ' ')
  strip (collapseWs s2)

/-- Modelled from the spec: preprocessing of a possibly-absent input; an
absent input is invalid and yields score 0 in every public function
(section 4.1), which the model realizes by producing the empty (invalid)
string. -/
def full_process_opt (s : Option (List Char)) (force_ascii : Bool) : List Char :=
  match s with
  | none => []
  | some t => processStr t force_ascii

/-- A possibly-absent string passed through unprocessed (full_process
false). An absent input fails validation in the backend exactly like the
empty string, which is how the model renders it. -/
def optStr : Option (List Char) → List Char
  | none => []
  | some t => t

namespace Fuzz

/-- thefuzz fuzz.ratio: utils.check_for_none (modelled from the spec: a
missing argument scores 0 before anything else), then utils.intr of the
backend ratio. -/
def ratio (s1 s2 : Option (List Char)) : ℤ :=
  match s1, s2 with
  | some a, some b => intr ((TF.ratio a b : ℚ))
  | _, _ => 0

/-- thefuzz fuzz.partial_ratio: check_for_none, then the backend. -/
def partial_ratio (s1 s2 : Option (List Char)) : ℤ :=
  match s1, s2 with
  | some a, some b => intr ((TF.partial_ratio a b : ℚ))
  | _, _ => 0

/-- thefuzz fuzz.token_sort_ratio: check_for_none, optional full_process of
both inputs, then the backend. -/
def token_sort_ratio (s1 s2 : Option (List Char)) (fa fp : Bool) : ℤ :=
  match s1, s2 with
  | some a, some b =>
      intr ((TF.token_sort_ratio (if fp then processStr a fa else a)
        (if fp then processStr b fa else b) : ℚ))
  | _, _ => 0

/-- thefuzz fuzz.partial_token_sort_ratio. -/
def partial_token_sort_ratio (s1 s2 : Option (List Char)) (fa fp : Bool) : ℤ :=
  match s1, s2 with
  | some a, some b =>
      intr ((TF.partial_token_sort_ratio (if fp then processStr a fa else a)
        (if fp then processStr b fa else b) : ℚ))
  | _, _ => 0

/-- thefuzz fuzz.token_set_ratio. -/
def token_set_ratio (s1 s2 : Option (List Char)) (fa fp : Bool) : ℤ :=
  match s1, s2 with
  | some a, some b =>
      intr ((TF.token_set_ratio (if fp then processStr a fa else a)
        (if fp then processStr b fa else b) : ℚ))
  | _, _ => 0

/-- thefuzz fuzz.partial_token_set_ratio. -/
def partial_token_set_ratio (s1 s2 : Option (List Char)) (fa fp : Bool) : ℤ :=
  match s1, s2 with
  | some a, some b =>
      intr ((TF.partial_token_set_ratio (if fp then processStr a fa else a)
        (if fp then processStr b fa else b) : ℚ))
  | _, _ => 0

/-- thefuzz fuzz.QRatio: optional full_process, validation short-circuit,
then fuzz.ratio on the processed strings. -/
def QRatio (s1 s2 : Option (List Char)) (fa fp : Bool) : ℤ :=
  let p1 := if fp then full_process_opt s1 fa else optStr s1
  let p2 := if fp then full_process_opt s2 fa else optStr s2
  if p1.length = 0 then 0
  else if p2.length = 0 then 0
  else ratio (some p1) (some p2)

/-- thefuzz fuzz.UQRatio: QRatio with force_ascii disabled. -/
def UQRatio (s1 s2 : Option (List Char)) (fp : Bool) : ℤ := QRatio s1 s2 false fp

/-- thefuzz fuzz.WRatio: optional full_process of both inputs, then
utils.intr of the backend WRatio. -/
def WRatio (s1 s2 : Option (List Char)) (fa fp : Bool) : ℤ :=
  let p1 := if fp then full_process_opt s1 fa else optStr s1
  let p2 := if fp then full_process_opt s2 fa else optStr s2
  intr ((TF.WRatio p1 p2 : ℚ))

/-- thefuzz fuzz.UWRatio: WRatio with force_ascii disabled. -/
def UWRatio (s1 s2 : Option (List Char)) (fp : Bool) : ℤ := WRatio s1 s2 false fp

end Fuzz

/-! ## Claim-side definitions

For the refinement claims (C1, C2, C8) a second definition is stated from
the words of the claim, to be compared with the definition translated from
the source. -/

/-- Occurrence of one string as a contiguous substring of another (used to
state claim C7). -/
def occursIn (needle hay : List Char) : Prop :=
  ∃ j, (hay.drop j).take needle.length = needle

/-- Stated from claim C2's words: the candidate ratio for one matching
block (i, j, k): the window of the longer string starting at max(j - i, 0)
with the length of the shorter string. -/
def prCand (shorter longer : List Char) (blk : Nat × Nat × Nat) : ℚ :=
  sm_ratio shorter
    ((longer.drop (Int.toNat (max ((blk.2.1 : ℤ) - (blk.1 : ℤ)) 0))).take shorter.length)

/-- Stated from claim C2's words: partial_ratio on non-empty, non-equal
strings as the claim describes it: the shorter-or-equal-length input
against windows of the other, 100 as soon as some candidate fractional
ratio exceeds 0.995, otherwise the maximum candidate scaled to a rounded
percentage, and 0 when there are no matching blocks. -/
def partialRatioClaim (s1 s2 : List Char) : ℤ :=
  let shorter := if s1.length ≤ s2.length then s1 else s2
  let longer := if s1.length ≤ s2.length then s2 else s1
  let blocks := get_matching_blocks shorter longer
  let cands := blocks.map (prCand shorter longer)
  if blocks.isEmpty then 0
  else if cands.any (fun r => decide ((199/200 : ℚ) < r)) then 100
  else intr (100 * (match cands with | [] => 0 | x :: xs => xs.foldl max x))

/-- Stated from claim C1's words: WRatio on valid inputs: base ratio and
length ratio; below 1.5 the token scores discounted by 0.95; otherwise the
partial scores with partial_scale 0.6 above 8 and 0.9 otherwise. -/
def wRatioClaim (s1 s2 : List Char) : ℤ :=
  if TF.lenRatio s1 s2 < 3/2 then
    intr (max ((TF.ratio s1 s2 : ℚ))
      (max ((TF.token_sort_ratio s1 s2 : ℚ) * (19/20))
           ((TF.token_set_ratio s1 s2 : ℚ) * (19/20))))
  else
    intr (max ((TF.ratio s1 s2 : ℚ))
      (max ((TF.partial_ratio s1 s2 : ℚ) *
              (if 8 < TF.lenRatio s1 s2 then 3/5 else 9/10))
        (max ((TF.partial_token_sort_ratio s1 s2 : ℚ) * (19/20) *
                (if 8 < TF.lenRatio s1 s2 then 3/5 else 9/10))
             ((TF.partial_token_set_ratio s1 s2 : ℚ) * (19/20) *
                (if 8 < TF.lenRatio s1 s2 then 3/5 else 9/10)))))

/-- Stated from claim C8's words: the token-set score of two non-equal,
valid strings: deduplicated whitespace token sets, the sorted intersection
string sect, the two combined strings (sect followed by each sorted
one-sided difference, all trimmed), and the maximum of the three pairwise
scores under partial_ratio for the partial variant and ratio otherwise. -/
def tokenSetClaim (s1 s2 : List Char) (p : Bool) : ℤ :=
  let t1 := (splitWs s1).dedup
  let t2 := (splitWs s2).dedup
  let sect := joinSp (sortStrs (t1.filter (fun t => t ∈ t2)))
  let combined1 := strip (sect ++ ' ' :: joinSp (sortStrs (t1.filter (fun t => t ∉ t2))))
  let combined2 := strip (sect ++ ' ' :: joinSp (sortStrs (t2.filter (fun t => t ∉ t1))))
  if p then
    max (TF.partial_ratio (strip sect) combined1)
      (max (TF.partial_ratio (strip sect) combined2)
           (TF.partial_ratio combined1 combined2))
  else
    max (TF.ratio (strip sect) combined1)
      (max (TF.ratio (strip sect) combined2)
           (TF.ratio combined1 combined2))

/-! ## Theorems -/

theorem ratFloor_eq (q : ℚ) : q.floor = ⌊q⌋ := by
  rw [Rat.floor_def', Rat.floor_def]

theorem intr_eq_floor_form (q : ℚ) : intr q =
    (if q - ⌊q⌋ < 1/2 then ⌊q⌋
     else if 1/2 < q - ⌊q⌋ then ⌊q⌋ + 1
     else if ⌊q⌋ % 2 = 0 then ⌊q⌋ else ⌊q⌋ + 1) := by
  simp only [intr, ratFloor_eq]

theorem intr_intCast (n : ℤ) : intr (n : ℚ) = n := by
  rw [intr_eq_floor_form]
  simp

theorem intr_nonneg {q : ℚ} (h : 0 ≤ q) : 0 ≤ intr q := by
  have h1 : (0 : ℤ) ≤ ⌊q⌋ := Int.floor_nonneg.2 h
  rw [intr_eq_floor_form]
  split_ifs <;> omega

theorem intr_le_of_le {q : ℚ} {n : ℤ} (h : q ≤ (n : ℚ)) : intr q ≤ n := by
  have h1 : ⌊q⌋ ≤ n := by
    have := Int.floor_mono h
    simpa using this
  have h2 : (⌊q⌋ : ℚ) ≤ q := Int.floor_le q
  rw [intr_eq_floor_form]
  split_ifs with hf1 hf2 hf3
  · exact h1
  · -- rounding up: the fractional part is over a half, so the floor is below n
    have hgt : (⌊q⌋ : ℚ) + 1/2 < q := by linarith
    have hne : ⌊q⌋ ≠ n := by
      intro he
      rw [he] at hgt
      linarith
    omega
  · exact h1
  · have hhalf : q - (⌊q⌋ : ℚ) = 1/2 := le_antisymm (not_lt.1 hf2) (not_lt.1 hf1)
    have hne : ⌊q⌋ ≠ n := by
      intro he
      rw [he] at hhalf
      linarith
    omega

theorem commonRun_le_left : ∀ (a b : List Char), commonRun a b ≤ a.length := by
  intro a
  induction a with
  | nil => intro b; cases b <;> simp [commonRun]
  | cons x xs ih =>
    intro b
    cases b with
    | nil => simp [commonRun]
    | cons y ys =>
      simp only [commonRun, List.length_cons]
      split_ifs
      · have := ih ys; omega
      · omega

theorem commonRun_le_right : ∀ (a b : List Char), commonRun a b ≤ b.length := by
  intro a
  induction a with
  | nil => intro b; cases b <;> simp [commonRun]
  | cons x xs ih =>
    intro b
    cases b with
    | nil => simp [commonRun]
    | cons y ys =>
      simp only [commonRun, List.length_cons]
      split_ifs
      · have := ih ys; omega
      · omega

theorem commonRun_nil_left (b : List Char) : commonRun [] b = 0 := by
  cases b <;> simp [commonRun]

theorem commonRun_nil_right (a : List Char) : commonRun a [] = 0 := by
  cases a <;> simp [commonRun]

theorem commonRun_pos_left {a b : List Char} (h : 0 < commonRun a b) : a ≠ [] := by
  intro he; subst he; rw [commonRun_nil_left] at h; omega

theorem commonRun_pos_right {a b : List Char} (h : 0 < commonRun a b) : b ≠ [] := by
  intro he; subst he; rw [commonRun_nil_right] at h; omega

/-- When the second sequence starts with the whole first sequence, the common
run is the whole first sequence. -/
theorem commonRun_of_take : ∀ (a b : List Char), b.take a.length = a →
    commonRun a b = a.length := by
  intro a
  induction a with
  | nil => intro b _; exact commonRun_nil_left b
  | cons x xs ih =>
    intro b h
    cases b with
    | nil => simp at h
    | cons y ys =>
      simp only [List.length_cons, List.take_succ_cons, List.cons.injEq] at h
      obtain ⟨rfl, h2⟩ := h
      simp [commonRun, ih ys h2]

/-- A full-length common run means the second sequence starts with the first. -/
theorem take_of_commonRun : ∀ (a b : List Char), commonRun a b = a.length →
    b.take a.length = a := by
  intro a
  induction a with
  | nil => intro b _; simp
  | cons x xs ih =>
    intro b h
    cases b with
    | nil => rw [commonRun_nil_right] at h; simp at h
    | cons y ys =>
      rw [commonRun] at h
      by_cases hxy : x = y
      · rw [if_pos hxy] at h
        simp only [List.length_cons] at h
        subst hxy
        have := ih ys (by omega)
        simp [this]
      · rw [if_neg hxy] at h
        simp at h

theorem scanJ_sound (a b : List Char) (i : Nat) :
    ∀ (js : List Nat) (best : Nat × Nat × Nat), soundBest a b best →
      soundBest a b (scanJ a b i js best) := by
  intro js
  induction js with
  | nil => intro best h; exact h
  | cons j js ih =>
    intro best h
    simp only [scanJ]
    apply ih
    split_ifs with hlt
    · exact Or.inr rfl
    · exact h

theorem scanI_sound (a b : List Char) :
    ∀ (is : List Nat) (best : Nat × Nat × Nat), soundBest a b best →
      soundBest a b (scanI a b is best) := by
  intro is
  induction is with
  | nil => intro best h; exact h
  | cons i is ih =>
    intro best h
    simp only [scanI]
    exact ih _ (scanJ_sound a b i _ best h)

theorem flm_sound (a b : List Char) : soundBest a b (find_longest_match a b) :=
  scanI_sound a b _ _ (Or.inl rfl)

theorem scanJ_le (a b : List Char) (i : Nat) :
    ∀ (js : List Nat) (best : Nat × Nat × Nat),
      best.2.2 ≤ (scanJ a b i js best).2.2 := by
  intro js
  induction js with
  | nil => intro best; exact le_refl _
  | cons j js ih =>
    intro best
    simp only [scanJ]
    refine le_trans ?_ (ih _)
    split_ifs with hlt
    · exact le_of_lt hlt
    · exact le_refl _

theorem scanJ_ge (a b : List Char) (i : Nat) :
    ∀ (js : List Nat) (best : Nat × Nat × Nat) (j : Nat), j ∈ js →
      commonRun (a.drop i) (b.drop j) ≤ (scanJ a b i js best).2.2 := by
  intro js
  induction js with
  | nil => intro best j h; simp at h
  | cons j0 js ih =>
    intro best j h
    rcases List.mem_cons.1 h with rfl | hmem
    · simp only [scanJ]
      refine le_trans ?_ (scanJ_le a b i js _)
      split_ifs with hlt
      · exact le_refl _
      · exact not_lt.1 hlt
    · simp only [scanJ]
      exact ih _ j hmem

theorem scanI_le (a b : List Char) :
    ∀ (is : List Nat) (best : Nat × Nat × Nat),
      best.2.2 ≤ (scanI a b is best).2.2 := by
  intro is
  induction is with
  | nil => intro best; exact le_refl _
  | cons i is ih =>
    intro best
    simp only [scanI]
    exact le_trans (scanJ_le a b i _ best) (ih _)

theorem scanI_ge (a b : List Char) :
    ∀ (is : List Nat) (best : Nat × Nat × Nat) (i j : Nat), i ∈ is →
      j ∈ List.range b.length →
      commonRun (a.drop i) (b.drop j) ≤ (scanI a b is best).2.2 := by
  intro is
  induction is with
  | nil => intro best i j h _; simp at h
  | cons i0 is ih =>
    intro best i j h hj
    rcases List.mem_cons.1 h with rfl | hmem
    · simp only [scanI]
      exact le_trans (scanJ_ge a b i (List.range b.length) best j hj) (scanI_le a b is _)
    · simp only [scanI]
      exact ih _ i j hmem hj

/-- find_longest_match dominates every common run. -/
theorem flm_ge (a b : List Char) (i j : Nat) :
    commonRun (a.drop i) (b.drop j) ≤ (find_longest_match a b).2.2 := by
  by_cases hi : i < a.length
  · by_cases hj : j < b.length
    · exact scanI_ge a b _ _ i j (List.mem_range.2 hi) (List.mem_range.2 hj)
    · have : b.drop j = [] := List.drop_eq_nil_of_le (by omega)
      rw [this, commonRun_nil_right]
      omega
  · have : a.drop i = [] := List.drop_eq_nil_of_le (by omega)
    rw [this, commonRun_nil_left]
    omega

theorem flm_nil_left (b : List Char) : find_longest_match [] b = (0, 0, 0) := rfl

theorem flm_nil_right (a : List Char) : find_longest_match a [] = (0, 0, 0) := by
  unfold find_longest_match
  have hz : ∀ (is : List Nat) (best : Nat × Nat × Nat), scanI a [] is best = best := by
    intro is
    induction is with
    | nil => intro best; rfl
    | cons i is ih =>
      intro best
      simp only [scanI, List.length_nil, List.range_zero, scanJ]
      exact ih best
  exact hz _ _

/-- Position and length facts about a nonzero best match. -/
theorem flm_spec {a b : List Char} (h : (find_longest_match a b).2.2 ≠ 0) :
    (find_longest_match a b).2.2 =
      commonRun (a.drop (find_longest_match a b).1) (b.drop (find_longest_match a b).2.1) ∧
    (find_longest_match a b).1 < a.length ∧
    (find_longest_match a b).2.1 < b.length ∧
    (find_longest_match a b).1 + (find_longest_match a b).2.2 ≤ a.length ∧
    (find_longest_match a b).2.1 + (find_longest_match a b).2.2 ≤ b.length := by
  rcases flm_sound a b with heq | hr
  · rw [heq] at h; simp at h
  · have hk : 0 < (find_longest_match a b).2.2 := Nat.pos_of_ne_zero h
    have hka : (find_longest_match a b).2.2 ≤ a.length - (find_longest_match a b).1 := by
      rw [hr]
      have := commonRun_le_left (a.drop (find_longest_match a b).1)
        (b.drop (find_longest_match a b).2.1)
      simpa using this
    have hkb : (find_longest_match a b).2.2 ≤ b.length - (find_longest_match a b).2.1 := by
      rw [hr]
      have := commonRun_le_right (a.drop (find_longest_match a b).1)
        (b.drop (find_longest_match a b).2.1)
      simpa using this
    have hia : (find_longest_match a b).1 < a.length := by
      by_contra hc
      have : a.drop (find_longest_match a b).1 = [] := List.drop_eq_nil_of_le (by omega)
      rw [hr, this, commonRun_nil_left] at hk
      omega
    have hjb : (find_longest_match a b).2.1 < b.length := by
      by_contra hc
      have : b.drop (find_longest_match a b).2.1 = [] := List.drop_eq_nil_of_le (by omega)
      rw [hr, this, commonRun_nil_right] at hk
      omega
    exact ⟨hr, hia, hjb, by omega, by omega⟩

theorem rawBlocksN_fuel : ∀ (n m : Nat) (a b : List Char), a.length ≤ n → a.length ≤ m →
    rawBlocksN n a b = rawBlocksN m a b := by
  intro n
  induction n with
  | zero =>
    intro m a b hn _
    have ha : a = [] := List.length_eq_zero.1 (by omega)
    subst ha
    cases m with
    | zero => rfl
    | succ m => simp [rawBlocksN, flm_nil_left]
  | succ n ih =>
    intro m a b hn hm
    cases m with
    | zero =>
      have ha : a = [] := List.length_eq_zero.1 (by omega)
      subst ha
      simp [rawBlocksN, flm_nil_left]
    | succ m =>
      simp only [rawBlocksN]
      by_cases hz : (find_longest_match a b).2.2 = 0
      · simp [hz]
      · obtain ⟨_, hia, _, hik, _⟩ := flm_spec hz
        have hk1 : 1 ≤ (find_longest_match a b).2.2 := Nat.pos_of_ne_zero hz
        rw [if_neg hz, if_neg hz]
        have e1 : rawBlocksN n (a.take (find_longest_match a b).1)
            (b.take (find_longest_match a b).2.1) =
            rawBlocksN m (a.take (find_longest_match a b).1)
            (b.take (find_longest_match a b).2.1) := by
          apply ih
          · simp only [List.length_take]; omega
          · simp only [List.length_take]; omega
        have e2 : rawBlocksN n
            (a.drop ((find_longest_match a b).1 + (find_longest_match a b).2.2))
            (b.drop ((find_longest_match a b).2.1 + (find_longest_match a b).2.2)) =
            rawBlocksN m
            (a.drop ((find_longest_match a b).1 + (find_longest_match a b).2.2))
            (b.drop ((find_longest_match a b).2.1 + (find_longest_match a b).2.2)) := by
          apply ih
          · simp only [List.length_drop]; omega
          · simp only [List.length_drop]; omega
        rw [e1, e2]

/-- Unfolding equation for rawBlocks, independent of the fuel. -/
theorem rawBlocks_eq (a b : List Char) :
    rawBlocks a b =
      if (find_longest_match a b).2.2 = 0 then []
      else
        rawBlocks (a.take (find_longest_match a b).1)
            (b.take (find_longest_match a b).2.1) ++
        find_longest_match a b ::
          (rawBlocks (a.drop ((find_longest_match a b).1 + (find_longest_match a b).2.2))
              (b.drop ((find_longest_match a b).2.1 + (find_longest_match a b).2.2))).map
            (fun t => (t.1 + ((find_longest_match a b).1 + (find_longest_match a b).2.2),
                       t.2.1 + ((find_longest_match a b).2.1 + (find_longest_match a b).2.2),
                       t.2.2)) := by
  unfold rawBlocks
  cases hl : a.length with
  | zero =>
    have ha : a = [] := List.length_eq_zero.1 hl
    subst ha
    simp [rawBlocksN, flm_nil_left]
  | succ n =>
    simp only [rawBlocksN]
    by_cases hz : (find_longest_match a b).2.2 = 0
    · simp [hz]
    · obtain ⟨_, hia, _, hik, _⟩ := flm_spec hz
      have hk1 : 1 ≤ (find_longest_match a b).2.2 := Nat.pos_of_ne_zero hz
      rw [if_neg hz, if_neg hz]
      have e1 := rawBlocksN_fuel n (a.take (find_longest_match a b).1).length
        (a.take (find_longest_match a b).1) (b.take (find_longest_match a b).2.1)
        (by simp only [List.length_take]; omega) (le_refl _)
      have e2 := rawBlocksN_fuel n
        (a.drop ((find_longest_match a b).1 + (find_longest_match a b).2.2)).length
        (a.drop ((find_longest_match a b).1 + (find_longest_match a b).2.2))
        (b.drop ((find_longest_match a b).2.1 + (find_longest_match a b).2.2))
        (by simp only [List.length_drop]; omega) (le_refl _)
      rw [e1, e2]

theorem get_matching_blocks_ne_nil (a b : List Char) : get_matching_blocks a b ≠ [] := by
  unfold get_matching_blocks
  simp

theorem sumK_nil : sumK [] = 0 := rfl

theorem sumK_cons (t : Nat × Nat × Nat) (l : List (Nat × Nat × Nat)) :
    sumK (t :: l) = t.2.2 + sumK l := by
  simp [sumK]

theorem sumK_append (l1 l2 : List (Nat × Nat × Nat)) :
    sumK (l1 ++ l2) = sumK l1 + sumK l2 := by
  simp [sumK]

theorem sumK_map_shift (l : List (Nat × Nat × Nat)) (da db : Nat) :
    sumK (l.map (fun t => (t.1 + da, t.2.1 + db, t.2.2))) = sumK l := by
  simp [sumK, List.map_map]
  rfl

theorem mergeBlocks_sumK : ∀ (l : List (Nat × Nat × Nat)) (acc : Nat × Nat × Nat),
    sumK (mergeBlocks acc l) = acc.2.2 + sumK l := by
  intro l
  induction l with
  | nil =>
    intro acc
    by_cases hz : acc.2.2 = 0 <;> simp [mergeBlocks, hz, sumK_cons, sumK_nil]
  | cons blk rest ih =>
    intro acc
    simp only [mergeBlocks]
    split_ifs with h1 h2
    · rw [ih]
      simp [sumK_cons]
      omega
    · rw [ih]
      simp [sumK_cons]
      omega
    · rw [sumK_cons, ih, sumK_cons]

/-- The matched characters of the raw decomposition never exceed either
sequence length (blocks are non-overlapping). -/
theorem sumK_rawBlocks_le (a b : List Char) :
    sumK (rawBlocks a b) ≤ a.length ∧ sumK (rawBlocks a b) ≤ b.length := by
  generalize hn : a.length = n
  induction n using Nat.strong_induction_on generalizing a b with
  | _ n ih =>
    rw [rawBlocks_eq]
    by_cases hz : (find_longest_match a b).2.2 = 0
    · simp [hz, sumK_nil]
    · obtain ⟨_, hia, hjb, hik, hjk⟩ := flm_spec hz
      have hk1 : 1 ≤ (find_longest_match a b).2.2 := Nat.pos_of_ne_zero hz
      rw [if_neg hz]
      rw [sumK_append, sumK_cons, sumK_map_shift]
      have hpre := ih (a.take (find_longest_match a b).1).length
        (by simp only [List.length_take]; omega)
        (a.take (find_longest_match a b).1) (b.take (find_longest_match a b).2.1) rfl
      have hsuf := ih
        (a.drop ((find_longest_match a b).1 + (find_longest_match a b).2.2)).length
        (by simp only [List.length_drop]; omega)
        (a.drop ((find_longest_match a b).1 + (find_longest_match a b).2.2))
        (b.drop ((find_longest_match a b).2.1 + (find_longest_match a b).2.2)) rfl
      simp only [List.length_take, List.length_drop] at hpre hsuf
      omega

theorem sumK_get_matching_blocks_le (a b : List Char) :
    sumK (get_matching_blocks a b) ≤ a.length ∧
    sumK (get_matching_blocks a b) ≤ b.length := by
  unfold get_matching_blocks
  rw [sumK_append, mergeBlocks_sumK]
  have := sumK_rawBlocks_le a b
  simp [sumK_cons, sumK_nil]
  omega

theorem sm_ratio_nonneg (a b : List Char) : 0 ≤ sm_ratio a b := by
  unfold sm_ratio
  split_ifs with h
  · norm_num
  · apply div_nonneg
    · positivity
    · positivity

theorem sm_ratio_le_one (a b : List Char) : sm_ratio a b ≤ 1 := by
  unfold sm_ratio
  split_ifs with h
  · exact le_refl 1
  · rw [div_le_one (by positivity)]
    have h1 := (sumK_get_matching_blocks_le a b).1
    have h2 := (sumK_get_matching_blocks_le a b).2
    have : 2 * sumK (get_matching_blocks a b) ≤ a.length + b.length := by omega
    push_cast
    exact_mod_cast by exact_mod_cast this

theorem intr_zero : intr 0 = 0 := by simpa using intr_intCast 0

theorem length_ne_zero_of_ne_nil {s : List Char} (h : s ≠ []) : ¬(s.length = 0) := by
  simpa [List.length_eq_zero] using h

/-! ### Claim C5: equivalence and empty-string short-circuits of ratio and
partial_ratio -/

/-- C5: for ratio and partial_ratio, identical inputs (including two empty
strings) score 100, and otherwise an empty input scores 0: the equivalence
check is applied before the empty-string check. -/
theorem claim_C5 (s1 s2 : List Char) (h : s1 = s2 ∨ s1 = [] ∨ s2 = []) :
    TF.ratio s1 s2 = (if s1 = s2 then 100 else 0) ∧
    TF.partial_ratio s1 s2 = (if s1 = s2 then 100 else 0) := by
  by_cases he : s1 = s2
  · subst he
    simp [TF.ratio, TF.partial_ratio, TF.partial_ratio_opt]
  · rcases h with h | h | h
    · exact absurd h he
    · subst h
      simp [TF.ratio, TF.partial_ratio, TF.partial_ratio_opt, he]
    · subst h
      simp [TF.ratio, TF.partial_ratio, TF.partial_ratio_opt, he]

/-- Witness for C5 at two empty strings: equivalence precedes the
empty-string rule, so both scores are 100. -/
theorem claim_C5_witness :
    (([] : List Char) = [] ∨ ([] : List Char) = [] ∨ ([] : List Char) = []) ∧
    TF.ratio [] [] = (if ([] : List Char) = [] then 100 else 0) ∧
    TF.partial_ratio [] [] = (if ([] : List Char) = [] then 100 else 0) :=
  ⟨Or.inl rfl, claim_C5 [] [] (Or.inl rfl)⟩

/-! ### Claim C6: commutativity of ratio (refuted) -/

/-- C6 counterexample: the full-string ratio is not commutative. The greedy
aligner resolves the tie between the runs ab and cd by the earliest start
in its first argument, so the argument order changes the matched total. -/
theorem claim_C6_cex :
    TF.ratio ['a', 'b', 'e', 'c', 'd'] ['c', 'd', 'f', 'a', 'b', 'g', 'e'] = 50 ∧
    TF.ratio ['c', 'd', 'f', 'a', 'b', 'g', 'e'] ['a', 'b', 'e', 'c', 'd'] = 33 := by
  constructor <;> with_unfolding_all decide

/-- C6 amended: ratio(s1, s2) = ratio(s2, s1) holds when the two strings
are equal or either is empty; it fails for general pairs (see the
counterexample): the aligner's tie-breaking is order-sensitive. -/
theorem claim_C6_amended (s1 s2 : List Char) (h : s1 = s2 ∨ s1 = [] ∨ s2 = []) :
    TF.ratio s1 s2 = TF.ratio s2 s1 := by
  rcases h with h | h | h
  · subst h; rfl
  · subst h
    by_cases he : s2 = []
    · subst he; rfl
    · have h1 : ([] : List Char) ≠ s2 := fun hh => he hh.symm
      simp [TF.ratio, he, h1]
  · subst h
    by_cases he : s1 = []
    · subst he; rfl
    · have h1 : ([] : List Char) ≠ s1 := fun hh => he hh.symm
      simp [TF.ratio, he, h1]

/-- Witness for the amended C6 at an empty first string. -/
theorem claim_C6_witness :
    (([] : List Char) = ['a'] ∨ ([] : List Char) = [] ∨ (['a'] : List Char) = []) ∧
    TF.ratio [] ['a'] = TF.ratio ['a'] [] :=
  ⟨Or.inr (Or.inl rfl), claim_C6_amended [] ['a'] (Or.inr (Or.inl rfl))⟩

/-! ### Claim C1: the WRatio policy -/

/-- C1: on inputs that are valid (non-empty) after preprocessing, WRatio
computes the base ratio and the length ratio, and follows the claimed
policy: below 1.5 the token scores discounted by 0.95, otherwise the
partial scores with partial_scale 0.6 when the length ratio exceeds 8 and
0.9 otherwise. -/
theorem claim_C1 (s1 s2 : List Char) (h1 : s1 ≠ []) (h2 : s2 ≠ []) :
    TF.WRatio s1 s2 = wRatioClaim s1 s2 := by
  unfold TF.WRatio wRatioClaim
  rw [if_neg (length_ne_zero_of_ne_nil h1), if_neg (length_ne_zero_of_ne_nil h2)]
  by_cases hl : TF.lenRatio s1 s2 < 3/2
  · simp [hl]
  · simp [hl]

/-- Witness for C1 on a pair with length ratio 2 (partial branch). -/
theorem claim_C1_witness :
    ((['a'] : List Char) ≠ []) ∧ ((['a', 'b'] : List Char) ≠ []) ∧
    TF.WRatio ['a'] ['a', 'b'] = wRatioClaim ['a'] ['a', 'b'] :=
  ⟨by decide, by decide, claim_C1 ['a'] ['a', 'b'] (by decide) (by decide)⟩

/-! ### Claim C2: the partial_ratio algorithm -/

theorem prCand_eq_srcCand (shorter longer : List Char) :
    prCand shorter longer = srcCand shorter longer := by
  funext blk
  have hnat : Int.toNat (max ((blk.2.1 : ℤ) - (blk.1 : ℤ)) 0) = blk.2.1 - blk.1 := by
    omega
  rw [prCand, srcCand, hnat]

theorem prLoop_eq (shorter longer : List Char) :
    ∀ (blocks : List (Nat × Nat × Nat)) (acc : List ℚ),
      TF.prLoop shorter longer blocks acc =
        if (blocks.map (srcCand shorter longer)).any
            (fun r => decide ((199/200 : ℚ) < r)) then some 100
        else
          match TF.maxQ (acc ++ blocks.map (srcCand shorter longer)) with
          | none => none
          | some m => some (intr (100 * m)) := by
  intro blocks
  induction blocks with
  | nil =>
    intro acc
    simp [TF.prLoop]
  | cons blk rest ih =>
    intro acc
    simp only [TF.prLoop, List.map_cons, List.any_cons]
    by_cases hr : (199/200 : ℚ) < srcCand shorter longer blk
    · rw [if_pos hr, decide_eq_true hr, Bool.true_or]
      simp
    · rw [if_neg hr, ih, decide_eq_false hr, Bool.false_or]
      simp [List.append_assoc]

/-- C2: on non-empty, non-equal inputs, partial_ratio is exactly the
claimed computation: candidates from the aligned windows of all matching
blocks, an immediate 100 when a candidate exceeds 0.995, otherwise the
rounded maximum candidate percentage. -/
theorem claim_C2 (s1 s2 : List Char) (hne : s1 ≠ s2) (h1 : s1 ≠ []) (h2 : s2 ≠ []) :
    TF.partial_ratio s1 s2 = partialRatioClaim s1 s2 := by
  unfold TF.partial_ratio TF.partial_ratio_opt partialRatioClaim
  rw [if_neg hne]
  rw [if_neg (by simp [List.length_eq_zero, h1, h2] : ¬(s1.length = 0 ∨ s2.length = 0))]
  by_cases hle : s1.length ≤ s2.length
  · rw [if_pos hle]
    simp only [if_pos hle, prLoop_eq, List.nil_append, prCand_eq_srcCand]
    rcases hb : get_matching_blocks s1 s2 with _ | ⟨b, bs⟩
    · exact absurd hb (get_matching_blocks_ne_nil s1 s2)
    · cases hA : ((b :: bs).map (srcCand s1 s2)).any
          (fun r => decide ((199/200 : ℚ) < r)) <;>
        simp [TF.maxQ]
  · rw [if_neg hle]
    simp only [if_neg hle, prLoop_eq, List.nil_append, prCand_eq_srcCand]
    rcases hb : get_matching_blocks s2 s1 with _ | ⟨b, bs⟩
    · exact absurd hb (get_matching_blocks_ne_nil s2 s1)
    · cases hA : ((b :: bs).map (srcCand s2 s1)).any
          (fun r => decide ((199/200 : ℚ) < r)) <;>
        simp [TF.maxQ]

/-- Witness for C2 on a concrete non-empty, non-equal pair. -/
theorem claim_C2_witness :
    ((['a', 'b', 'c'] : List Char) ≠ ['x', 'a', 'b']) ∧
    ((['a', 'b', 'c'] : List Char) ≠ []) ∧ ((['x', 'a', 'b'] : List Char) ≠ []) ∧
    TF.partial_ratio ['a', 'b', 'c'] ['x', 'a', 'b'] =
      partialRatioClaim ['a', 'b', 'c'] ['x', 'a', 'b'] :=
  ⟨by decide, by decide, by decide,
    claim_C2 ['a', 'b', 'c'] ['x', 'a', 'b'] (by decide) (by decide) (by decide)⟩

/-! ### Claim C8: the token-set computation -/

/-- C8: on non-equal, valid (non-empty) inputs, the token-set score is the
maximum of the three pairwise scores of the sorted intersection string and
the two combined strings, under partial_ratio for the partial variant and
ratio otherwise. -/
theorem claim_C8 (s1 s2 : List Char) (p : Bool) (hne : s1 ≠ s2)
    (h1 : s1 ≠ []) (h2 : s2 ≠ []) :
    TF.token_set s1 s2 p = tokenSetClaim s1 s2 p := by
  unfold TF.token_set tokenSetClaim
  rw [if_neg hne, if_neg (length_ne_zero_of_ne_nil h1),
    if_neg (length_ne_zero_of_ne_nil h2)]

/-- Witness for C8 on a concrete pair of token strings. -/
theorem claim_C8_witness :
    ((['a', ' ', 'b'] : List Char) ≠ ['b']) ∧
    ((['a', ' ', 'b'] : List Char) ≠ []) ∧ ((['b'] : List Char) ≠ []) ∧
    TF.token_set ['a', ' ', 'b'] ['b'] false = tokenSetClaim ['a', ' ', 'b'] ['b'] false :=
  ⟨by decide, by decide, by decide,
    claim_C8 ['a', ' ', 'b'] ['b'] false (by decide) (by decide) (by decide)⟩

/-! ### Claim C10: totality of partial_ratio -/

theorem prLoop_isSome (shorter longer : List Char) :
    ∀ (blocks : List (Nat × Nat × Nat)) (acc : List ℚ), blocks ≠ [] ∨ acc ≠ [] →
      (TF.prLoop shorter longer blocks acc).isSome := by
  intro blocks
  induction blocks with
  | nil =>
    intro acc h
    rcases h with h | h
    · exact absurd rfl h
    · cases acc with
      | nil => exact absurd rfl h
      | cons x xs => simp [TF.prLoop, TF.maxQ]
  | cons blk rest ih =>
    intro acc _
    simp only [TF.prLoop]
    split_ifs with hr
    · rfl
    · apply ih
      right
      simp

/-- C10: on non-empty, non-equal inputs the matching block list is never
empty (the terminating zero-length block is always appended), so the
candidate score list of partial_ratio is non-empty and its final maximum
never fails: partial_ratio is total on such inputs. -/
theorem claim_C10 (s1 s2 : List Char) (hne : s1 ≠ s2) (h1 : s1 ≠ []) (h2 : s2 ≠ []) :
    (if s1.length ≤ s2.length then get_matching_blocks s1 s2
     else get_matching_blocks s2 s1) ≠ [] ∧
    (TF.partial_ratio_opt s1 s2).isSome := by
  constructor
  · split_ifs <;> exact get_matching_blocks_ne_nil _ _
  · unfold TF.partial_ratio_opt
    rw [if_neg hne]
    rw [if_neg (by simp [List.length_eq_zero, h1, h2] : ¬(s1.length = 0 ∨ s2.length = 0))]
    split_ifs with hle
    · exact prLoop_isSome _ _ _ _ (Or.inl (get_matching_blocks_ne_nil _ _))
    · exact prLoop_isSome _ _ _ _ (Or.inl (get_matching_blocks_ne_nil _ _))

/-- Witness for C10 on a concrete non-empty, non-equal pair. -/
theorem claim_C10_witness :
    ((['a'] : List Char) ≠ ['b']) ∧ ((['a'] : List Char) ≠ []) ∧
    ((['b'] : List Char) ≠ []) ∧
    ((if (['a'] : List Char).length ≤ (['b'] : List Char).length then
        get_matching_blocks ['a'] ['b'] else get_matching_blocks ['b'] ['a']) ≠ [] ∧
      (TF.partial_ratio_opt ['a'] ['b']).isSome) :=
  ⟨by decide, by decide, by decide,
    claim_C10 ['a'] ['b'] (by decide) (by decide) (by decide)⟩

/-! ### Claim C3: missing arguments score 0 -/

theorem TF_WRatio_nil_left (s : List Char) : TF.WRatio [] s = 0 := by
  simp [TF.WRatio]

theorem TF_WRatio_nil_right (s : List Char) : TF.WRatio s [] = 0 := by
  by_cases h : s.length = 0 <;> simp [TF.WRatio, h]

/-- C3: a missing (None) argument to any of the ten public scoring
functions yields score 0 and never raises, for every value of the other
argument and of the flags. -/
theorem claim_C3 (s : Option (List Char)) (fa fp : Bool) :
    Fuzz.ratio none s = 0 ∧ Fuzz.ratio s none = 0 ∧
    Fuzz.partial_ratio none s = 0 ∧ Fuzz.partial_ratio s none = 0 ∧
    Fuzz.token_sort_ratio none s fa fp = 0 ∧ Fuzz.token_sort_ratio s none fa fp = 0 ∧
    Fuzz.partial_token_sort_ratio none s fa fp = 0 ∧
    Fuzz.partial_token_sort_ratio s none fa fp = 0 ∧
    Fuzz.token_set_ratio none s fa fp = 0 ∧ Fuzz.token_set_ratio s none fa fp = 0 ∧
    Fuzz.partial_token_set_ratio none s fa fp = 0 ∧
    Fuzz.partial_token_set_ratio s none fa fp = 0 ∧
    Fuzz.QRatio none s fa fp = 0 ∧ Fuzz.QRatio s none fa fp = 0 ∧
    Fuzz.UQRatio none s fp = 0 ∧ Fuzz.UQRatio s none fp = 0 ∧
    Fuzz.WRatio none s fa fp = 0 ∧ Fuzz.WRatio s none fa fp = 0 ∧
    Fuzz.UWRatio none s fp = 0 ∧ Fuzz.UWRatio s none fp = 0 := by
  cases s <;>
    simp [Fuzz.ratio, Fuzz.partial_ratio, Fuzz.token_sort_ratio,
      Fuzz.partial_token_sort_ratio, Fuzz.token_set_ratio, Fuzz.partial_token_set_ratio,
      Fuzz.QRatio, Fuzz.UQRatio, Fuzz.WRatio, Fuzz.UWRatio, full_process_opt, optStr,
      TF_WRatio_nil_left, TF_WRatio_nil_right, intr_zero]

/-! ### Claim C4: empty-after-preprocessing inputs (corrected) -/

/-- C4 counterexample: with full_process true, two inputs that both
normalize to the empty string score 100 (not 0) under the token_sort and
token_set functions: the backend equivalence short-circuit fires before the
empty or validation checks. -/
theorem claim_C4_cex :
    Fuzz.token_sort_ratio (some []) (some []) true true = 100 ∧
    Fuzz.partial_token_sort_ratio (some []) (some []) true true = 100 ∧
    Fuzz.token_set_ratio (some []) (some []) true true = 100 ∧
    Fuzz.partial_token_set_ratio (some []) (some []) true true = 100 := by
  refine ⟨?_, ?_, ?_, ?_⟩ <;> with_unfolding_all decide

/-! ### Whitespace and token lemmas (for the amended C4) -/

theorem all_ws_of_stripL_eq_nil : ∀ (s : List Char), stripL s = [] →
    ∀ c ∈ s, isWs c = true := by
  intro s
  induction s with
  | nil => intro _ c hc; simp at hc
  | cons x xs ih =>
    intro h c hc
    rw [stripL, List.dropWhile_cons] at h
    by_cases hx : isWs x = true
    · rw [if_pos hx] at h
      rcases List.mem_cons.1 hc with rfl | hmem
      · exact hx
      · exact ih h c hmem
    · rw [if_neg hx] at h
      simp at h

theorem stripL_head_not_ws : ∀ (s : List Char), stripL s = [] ∨
    ∃ c cs, stripL s = c :: cs ∧ isWs c = false := by
  intro s
  induction s with
  | nil => left; rfl
  | cons x xs ih =>
    by_cases hx : isWs x = true
    · rw [stripL, List.dropWhile_cons, if_pos hx]
      exact ih
    · right
      exact ⟨x, xs, by rw [stripL, List.dropWhile_cons, if_neg hx], by simpa using hx⟩

theorem all_ws_of_strip_eq_nil {s : List Char} (h : strip s = []) :
    ∀ c ∈ s, isWs c = true := by
  rw [strip] at h
  have h1 : stripL ((stripL s).reverse) = [] := List.reverse_eq_nil_iff.1 h
  have h3 : ∀ c ∈ stripL s, isWs c = true := by
    intro c hc
    exact all_ws_of_stripL_eq_nil _ h1 c (List.mem_reverse.2 hc)
  rcases stripL_head_not_ws s with h4 | ⟨c, cs, h4, h5⟩
  · exact all_ws_of_stripL_eq_nil s h4
  · exfalso
    have := h3 c (by rw [h4]; exact List.mem_cons_self c cs)
    rw [h5] at this
    simp at this

theorem strip_has_non_ws {s : List Char} (h : strip s ≠ []) :
    ∃ c ∈ strip s, isWs c = false := by
  rcases stripL_head_not_ws ((stripL s).reverse) with h1 | ⟨c, cs, h1, h2⟩
  · exact absurd (by rw [strip, h1]; rfl) h
  · refine ⟨c, ?_, h2⟩
    rw [strip, h1]
    exact List.mem_reverse.2 (List.mem_cons_self c cs)

theorem splitWsA_ne_nil_of_cur : ∀ (s cur : List Char), cur ≠ [] →
    splitWsA s cur ≠ [] := by
  intro s
  induction s with
  | nil =>
    intro cur h
    have : cur.isEmpty = false := by simpa [List.isEmpty_iff] using h
    simp [splitWsA, this]
  | cons c rest ih =>
    intro cur h
    have he : cur.isEmpty = false := by simpa [List.isEmpty_iff] using h
    rw [splitWsA]
    by_cases hc : isWs c = true
    · rw [if_pos hc, he]
      simp
    · rw [if_neg hc]
      exact ih (c :: cur) (by simp)

theorem splitWsA_ne_nil : ∀ (s cur : List Char), (∃ c ∈ s, isWs c = false) →
    splitWsA s cur ≠ [] := by
  intro s
  induction s with
  | nil =>
    intro cur h
    obtain ⟨c, hc, _⟩ := h
    simp at hc
  | cons d rest ih =>
    intro cur h
    obtain ⟨c, hc, hcw⟩ := h
    rw [splitWsA]
    by_cases hd : isWs d = true
    · rw [if_pos hd]
      have hcr : ∃ c ∈ rest, isWs c = false := by
        rcases List.mem_cons.1 hc with rfl | hm
        · rw [hd] at hcw; simp at hcw
        · exact ⟨c, hm, hcw⟩
      by_cases he : cur.isEmpty = true
      · rw [if_pos he]; exact ih [] hcr
      · rw [if_neg he]; simp
    · rw [if_neg hd]
      exact splitWsA_ne_nil_of_cur rest (d :: cur) (by simp)

theorem splitWsA_tokens_ne_nil : ∀ (s cur t : List Char),
    t ∈ splitWsA s cur → t ≠ [] := by
  intro s
  induction s with
  | nil =>
    intro cur t ht
    rw [splitWsA] at ht
    by_cases he : cur.isEmpty = true
    · rw [if_pos he] at ht; simp at ht
    · rw [if_neg he] at ht
      simp only [List.mem_singleton] at ht
      subst ht
      simp [List.isEmpty_iff] at he
      simpa using he
  | cons c rest ih =>
    intro cur t ht
    rw [splitWsA] at ht
    by_cases hc : isWs c = true
    · rw [if_pos hc] at ht
      by_cases he : cur.isEmpty = true
      · rw [if_pos he] at ht
        exact ih [] t ht
      · rw [if_neg he] at ht
        rcases List.mem_cons.1 ht with rfl | hm
        · simp [List.isEmpty_iff] at he
          simpa using he
        · exact ih [] t hm
    · rw [if_neg hc] at ht
      exact ih (c :: cur) t ht

theorem splitWsA_tokens_no_ws : ∀ (s cur : List Char),
    (∀ c ∈ cur, isWs c = false) →
    ∀ t ∈ splitWsA s cur, ∀ c ∈ t, isWs c = false := by
  intro s
  induction s with
  | nil =>
    intro cur hcur t ht c hc
    rw [splitWsA] at ht
    by_cases he : cur.isEmpty = true
    · rw [if_pos he] at ht; simp at ht
    · rw [if_neg he] at ht
      simp only [List.mem_singleton] at ht
      subst ht
      exact hcur c (List.mem_reverse.1 hc)
  | cons d rest ih =>
    intro cur hcur t ht c hc
    rw [splitWsA] at ht
    by_cases hd : isWs d = true
    · rw [if_pos hd] at ht
      by_cases he : cur.isEmpty = true
      · rw [if_pos he] at ht
        exact ih [] (by simp) t ht c hc
      · rw [if_neg he] at ht
        rcases List.mem_cons.1 ht with rfl | hm
        · exact hcur c (List.mem_reverse.1 hc)
        · exact ih [] (by simp) t hm c hc
    · rw [if_neg hd] at ht
      refine ih (d :: cur) ?_ t ht c hc
      intro e he'
      rcases List.mem_cons.1 he' with rfl | hm
      · simpa using hd
      · exact hcur e hm

theorem mem_insStr : ∀ (l : List (List Char)) (x t : List Char),
    t ∈ insStr x l → t = x ∨ t ∈ l := by
  intro l
  induction l with
  | nil =>
    intro x t ht
    simp only [insStr, List.mem_singleton] at ht
    exact Or.inl ht
  | cons y ys ih =>
    intro x t ht
    rw [insStr] at ht
    by_cases h : strLe x y = true
    · rw [if_pos h] at ht
      rcases List.mem_cons.1 ht with rfl | hm
      · exact Or.inl rfl
      · exact Or.inr hm
    · rw [if_neg h] at ht
      rcases List.mem_cons.1 ht with rfl | hm
      · exact Or.inr (List.mem_cons_self _ _)
      · rcases ih x t hm with h1 | h1
        · exact Or.inl h1
        · exact Or.inr (List.mem_cons_of_mem _ h1)

theorem mem_sortStrs : ∀ (l : List (List Char)) (t : List Char),
    t ∈ sortStrs l → t ∈ l := by
  intro l
  induction l with
  | nil => intro t ht; simp [sortStrs] at ht
  | cons x xs ih =>
    intro t ht
    rw [sortStrs] at ht
    rcases mem_insStr _ x t ht with rfl | hm
    · exact List.mem_cons_self _ _
    · exact List.mem_cons_of_mem _ (ih t hm)

theorem insStr_length (x : List Char) : ∀ (l : List (List Char)),
    (insStr x l).length = l.length + 1 := by
  intro l
  induction l with
  | nil => rfl
  | cons y ys ih =>
    rw [insStr]
    by_cases h : strLe x y = true
    · rw [if_pos h]; rfl
    · rw [if_neg h]
      simp only [List.length_cons, ih]

theorem sortStrs_length : ∀ (l : List (List Char)), (sortStrs l).length = l.length := by
  intro l
  induction l with
  | nil => rfl
  | cons x xs ih => rw [sortStrs, insStr_length, ih, List.length_cons]

theorem sortStrs_ne_nil {l : List (List Char)} (h : l ≠ []) : sortStrs l ≠ [] := by
  intro he
  have h1 := sortStrs_length l
  rw [he] at h1
  simp only [List.length_nil] at h1
  exact h (List.length_eq_zero.1 h1.symm)

theorem joinSp_cons_cons (x y : List Char) (ys : List (List Char)) :
    joinSp (x :: y :: ys) = x ++ ' ' :: joinSp (y :: ys) := rfl

theorem mem_joinSp : ∀ (l : List (List Char)) (t : List Char), t ∈ l →
    ∀ c ∈ t, c ∈ joinSp l := by
  intro l
  induction l with
  | nil => intro t ht; simp at ht
  | cons x xs ih =>
    intro t ht c hc
    rcases List.mem_cons.1 ht with rfl | hm
    · cases xs with
      | nil => simpa [joinSp] using hc
      | cons y ys =>
        rw [joinSp_cons_cons]
        exact List.mem_append.2 (Or.inl hc)
    · cases xs with
      | nil => simp at hm
      | cons y ys =>
        rw [joinSp_cons_cons]
        refine List.mem_append.2 (Or.inr ?_)
        exact List.mem_cons_of_mem _ (ih t hm c hc)

theorem sort_tokens_ne_nil {p : List Char} (hsp : splitWs p ≠ [])
    (htok : ∀ t ∈ splitWs p, t ≠ [])
    (hws : ∀ t ∈ splitWs p, ∀ c ∈ t, isWs c = false) :
    TF.sort_tokens p ≠ [] := by
  intro he
  rw [TF.sort_tokens] at he
  have hall := all_ws_of_strip_eq_nil he
  rcases hl : sortStrs (splitWs p) with _ | ⟨t0, ts⟩
  · exact sortStrs_ne_nil hsp hl
  · have ht0mem : t0 ∈ sortStrs (splitWs p) := by
      rw [hl]; exact List.mem_cons_self _ _
    have ht0 : t0 ∈ splitWs p := mem_sortStrs _ _ ht0mem
    rcases hc : t0 with _ | ⟨c, cs⟩
    · exact htok t0 ht0 hc
    · have hcmem : c ∈ joinSp (sortStrs (splitWs p)) :=
        mem_joinSp _ t0 ht0mem c (by rw [hc]; exact List.mem_cons_self _ _)
      have h1 := hall c hcmem
      have h2 := hws t0 ht0 c (by rw [hc]; exact List.mem_cons_self _ _)
      rw [h1] at h2
      simp at h2

theorem sort_tokens_processStr_ne_nil {s : List Char} {fa : Bool}
    (h : processStr s fa ≠ []) : TF.sort_tokens (processStr s fa) ≠ [] := by
  have h1 : ∃ c ∈ processStr s fa, isWs c = false := strip_has_non_ws h
  have hsp : splitWs (processStr s fa) ≠ [] := splitWsA_ne_nil _ _ h1
  exact sort_tokens_ne_nil hsp (fun t ht => splitWsA_tokens_ne_nil _ _ t ht)
    (fun t ht => splitWsA_tokens_no_ws _ _ (by simp) t ht)

/-! ### Zero lemmas for the backend scorers on one-sided empty input -/

theorem TF_ratio_nil_left {t : List Char} (h : t ≠ []) : TF.ratio [] t = 0 := by
  have h1 : ¬([] : List Char) = t := fun hh => h hh.symm
  simp [TF.ratio, h1]

theorem TF_ratio_nil_right {t : List Char} (h : t ≠ []) : TF.ratio t [] = 0 := by
  simp [TF.ratio, h]

theorem TF_partial_ratio_nil_left {t : List Char} (h : t ≠ []) :
    TF.partial_ratio [] t = 0 := by
  have h1 : ¬([] : List Char) = t := fun hh => h hh.symm
  simp [TF.partial_ratio, TF.partial_ratio_opt, h1]

theorem TF_partial_ratio_nil_right {t : List Char} (h : t ≠ []) :
    TF.partial_ratio t [] = 0 := by
  simp [TF.partial_ratio, TF.partial_ratio_opt, h]

theorem TF_token_sort_zero_left {p1 p2 : List Char} (pp : Bool)
    (h1 : TF.sort_tokens p1 = []) (h2 : TF.sort_tokens p2 ≠ []) :
    TF.token_sort p1 p2 pp = 0 := by
  rw [TF.token_sort, h1]
  cases pp
  · simp [TF_ratio_nil_left h2]
  · simp [TF_partial_ratio_nil_left h2]

theorem TF_token_sort_zero_right {p1 p2 : List Char} (pp : Bool)
    (h1 : TF.sort_tokens p1 ≠ []) (h2 : TF.sort_tokens p2 = []) :
    TF.token_sort p1 p2 pp = 0 := by
  rw [TF.token_sort, h2]
  cases pp
  · simp [TF_ratio_nil_right h1]
  · simp [TF_partial_ratio_nil_right h1]

theorem TF_token_set_zero_left {t : List Char} (pp : Bool) (h : t ≠ []) :
    TF.token_set [] t pp = 0 := by
  have h1 : ¬([] : List Char) = t := fun hh => h hh.symm
  simp [TF.token_set, h1]

theorem TF_token_set_zero_right {t : List Char} (pp : Bool) (h : t ≠ []) :
    TF.token_set t [] pp = 0 := by
  simp [TF.token_set, h, length_ne_zero_of_ne_nil h]

/-- C4 amended: with full_process true, QRatio and WRatio return 0 whenever
either processed string is empty; the token_sort and token_set functions
return 0 whenever either processed string is empty and the two processed
strings differ; but when both inputs normalize to the same string — in
particular both to the empty string — the backend equivalence short-circuit
scores 100 instead (see the counterexample). -/
theorem claim_C4_amended (a b : List Char) (fa : Bool)
    (h : processStr a fa = [] ∨ processStr b fa = []) :
    Fuzz.QRatio (some a) (some b) fa true = 0 ∧
    Fuzz.WRatio (some a) (some b) fa true = 0 ∧
    (processStr a fa ≠ processStr b fa →
      Fuzz.token_sort_ratio (some a) (some b) fa true = 0 ∧
      Fuzz.partial_token_sort_ratio (some a) (some b) fa true = 0 ∧
      Fuzz.token_set_ratio (some a) (some b) fa true = 0 ∧
      Fuzz.partial_token_set_ratio (some a) (some b) fa true = 0) := by
  refine ⟨?_, ?_, ?_⟩
  · rcases h with h | h <;> simp [Fuzz.QRatio, full_process_opt, h]
  · rcases h with h | h <;>
      simp [Fuzz.WRatio, full_process_opt, h, TF_WRatio_nil_left, TF_WRatio_nil_right,
        intr_zero]
  · intro hne
    rcases h with h | h
    · have hb : processStr b fa ≠ [] := fun hb => hne (by rw [h, hb])
      have hsb : TF.sort_tokens (processStr b fa) ≠ [] :=
        sort_tokens_processStr_ne_nil hb
      have hsa : TF.sort_tokens (processStr a fa) = [] := by rw [h]; rfl
      refine ⟨?_, ?_, ?_, ?_⟩
      · simp [Fuzz.token_sort_ratio, TF.token_sort_ratio,
          TF_token_sort_zero_left false hsa hsb, intr_zero]
      · simp [Fuzz.partial_token_sort_ratio, TF.partial_token_sort_ratio,
          TF_token_sort_zero_left true hsa hsb, intr_zero]
      · simp [Fuzz.token_set_ratio, TF.token_set_ratio, h,
          TF_token_set_zero_left false hb, intr_zero]
      · simp [Fuzz.partial_token_set_ratio, TF.partial_token_set_ratio, h,
          TF_token_set_zero_left true hb, intr_zero]
    · have ha : processStr a fa ≠ [] := fun ha => hne (by rw [h, ha])
      have hsa : TF.sort_tokens (processStr a fa) ≠ [] :=
        sort_tokens_processStr_ne_nil ha
      have hsb : TF.sort_tokens (processStr b fa) = [] := by rw [h]; rfl
      refine ⟨?_, ?_, ?_, ?_⟩
      · simp [Fuzz.token_sort_ratio, TF.token_sort_ratio,
          TF_token_sort_zero_right false hsa hsb, intr_zero]
      · simp [Fuzz.partial_token_sort_ratio, TF.partial_token_sort_ratio,
          TF_token_sort_zero_right true hsa hsb, intr_zero]
      · simp [Fuzz.token_set_ratio, TF.token_set_ratio, h,
          TF_token_set_zero_right false ha, intr_zero]
      · simp [Fuzz.partial_token_set_ratio, TF.partial_token_set_ratio, h,
          TF_token_set_zero_right true ha, intr_zero]

/-- Witness for the amended C4: the input made only of punctuation
normalizes to the empty string, the other to a non-empty one. -/
theorem claim_C4_witness :
    (processStr ['!'] true = [] ∨ processStr ['a'] true = []) ∧
    (processStr ['!'] true ≠ processStr ['a'] true) ∧
    Fuzz.QRatio (some ['!']) (some ['a']) true true = 0 ∧
    Fuzz.WRatio (some ['!']) (some ['a']) true true = 0 ∧
    Fuzz.token_sort_ratio (some ['!']) (some ['a']) true true = 0 ∧
    Fuzz.partial_token_sort_ratio (some ['!']) (some ['a']) true true = 0 ∧
    Fuzz.token_set_ratio (some ['!']) (some ['a']) true true = 0 ∧
    Fuzz.partial_token_set_ratio (some ['!']) (some ['a']) true true = 0 := by
  have h := claim_C4_amended ['!'] ['a'] true (Or.inl (by decide))
  have ht := h.2.2 (by decide)
  exact ⟨Or.inl (by decide), by decide, h.1, h.2.1, ht.1, ht.2.1, ht.2.2.1, ht.2.2.2⟩

/-! ### Claim C7: substring inputs score 100 under partial_ratio -/

theorem rawBlocks_nil_left (b : List Char) : rawBlocks [] b = [] := rfl

/-- When the first (non-empty) sequence occurs in the second, the best
match is the full first sequence, necessarily at offset 0 of the first. -/
theorem flm_substring {sh lo : List Char} (hne : sh ≠ []) (h : occursIn sh lo) :
    find_longest_match sh lo = (0, (find_longest_match sh lo).2.1, sh.length) ∧
    (lo.drop ((find_longest_match sh lo).2.1)).take sh.length = sh := by
  obtain ⟨j0, hj0⟩ := h
  have hrun : commonRun sh (lo.drop j0) = sh.length :=
    commonRun_of_take sh (lo.drop j0) hj0
  have hge : sh.length ≤ (find_longest_match sh lo).2.2 := by
    have hx := flm_ge sh lo 0 j0
    rw [List.drop_zero, hrun] at hx
    exact hx
  have hlen0 : sh.length ≠ 0 := fun hh => hne (List.length_eq_zero.1 hh)
  have hk0 : (find_longest_match sh lo).2.2 ≠ 0 := by omega
  obtain ⟨hr, hia, hjb, hika, hjkb⟩ := flm_spec hk0
  have hle : (find_longest_match sh lo).2.2 ≤ sh.length - (find_longest_match sh lo).1 := by
    rw [hr]
    have := commonRun_le_left (sh.drop (find_longest_match sh lo).1)
      (lo.drop (find_longest_match sh lo).2.1)
    simpa using this
  have hk : (find_longest_match sh lo).2.2 = sh.length := by omega
  have hi : (find_longest_match sh lo).1 = 0 := by omega
  constructor
  · calc find_longest_match sh lo
        = ((find_longest_match sh lo).1, (find_longest_match sh lo).2.1,
           (find_longest_match sh lo).2.2) := rfl
      _ = (0, (find_longest_match sh lo).2.1, sh.length) := by rw [hi, hk]
  · apply take_of_commonRun
    have hx := hr
    rw [hi, List.drop_zero, hk] at hx
    exact hx.symm

/-- Block decomposition for a substring occurrence: a single full-length
block plus the terminating block. -/
theorem blocks_substring {sh lo : List Char} (hne : sh ≠ []) (h : occursIn sh lo) :
    ∃ j, get_matching_blocks sh lo =
        [(0, j, sh.length), (sh.length, lo.length, 0)] ∧
      (lo.drop j).take sh.length = sh := by
  obtain ⟨hflm, hocc⟩ := flm_substring hne h
  have hlen0 : sh.length ≠ 0 := fun hh => hne (List.length_eq_zero.1 hh)
  refine ⟨(find_longest_match sh lo).2.1, ?_, hocc⟩
  have hraw : rawBlocks sh lo = [(0, (find_longest_match sh lo).2.1, sh.length)] := by
    rw [rawBlocks_eq, hflm]
    simp [rawBlocks_nil_left, hlen0, List.drop_length]
  have hmerge : mergeBlocks (0, 0, 0) [(0, (find_longest_match sh lo).2.1, sh.length)] =
      [(0, (find_longest_match sh lo).2.1, sh.length)] := by
    by_cases hj : (find_longest_match sh lo).2.1 = 0
    · rw [hj]
      simp [mergeBlocks, hlen0]
    · simp [mergeBlocks, hlen0, hj]
  rw [get_matching_blocks, hraw, hmerge]
  rfl

/-- The base ratio of a non-empty sequence with itself is 1. -/
theorem sm_ratio_self {s : List Char} (h : s ≠ []) : sm_ratio s s = 1 := by
  have hocc : occursIn s s := ⟨0, by simp⟩
  obtain ⟨j, hblocks, _⟩ := blocks_substring h hocc
  unfold sm_ratio
  have hlen0 : s.length ≠ 0 := fun hh => h (List.length_eq_zero.1 hh)
  have hlen : ¬(s.length + s.length = 0) := by omega
  rw [if_neg hlen, hblocks]
  have hb : ((s.length + s.length : ℕ) : ℚ) ≠ 0 := by
    exact_mod_cast hlen
  field_simp [sumK]
  ring

/-- C7: when the shorter (or equal-length) input occurs as a contiguous
substring of the longer one, partial_ratio returns 100: the matching block
of the full occurrence aligns a window equal to the shorter string, whose
fractional ratio 1 exceeds the 0.995 short-circuit threshold. -/
theorem claim_C7 (s1 s2 : List Char) (h1 : s1 ≠ []) (h2 : s2 ≠ [])
    (hsub : if s1.length ≤ s2.length then occursIn s1 s2 else occursIn s2 s1) :
    TF.partial_ratio s1 s2 = 100 := by
  by_cases heq : s1 = s2
  · subst heq
    simp [TF.partial_ratio, TF.partial_ratio_opt]
  · unfold TF.partial_ratio TF.partial_ratio_opt
    rw [if_neg heq,
      if_neg (by simp [List.length_eq_zero, h1, h2] : ¬(s1.length = 0 ∨ s2.length = 0))]
    by_cases hle : s1.length ≤ s2.length
    · rw [if_pos hle]
      rw [if_pos hle] at hsub
      obtain ⟨j, hblocks, hocc⟩ := blocks_substring h1 hsub
      rw [hblocks, TF.prLoop]
      have hcand : srcCand s1 s2 (0, j, s1.length) = 1 := by
        rw [srcCand]
        simp only [Nat.sub_zero]
        rw [hocc]
        exact sm_ratio_self h1
      rw [hcand, if_pos (by norm_num : (199/200 : ℚ) < 1)]
      rfl
    · rw [if_neg hle]
      rw [if_neg hle] at hsub
      obtain ⟨j, hblocks, hocc⟩ := blocks_substring h2 hsub
      rw [hblocks, TF.prLoop]
      have hcand : srcCand s2 s1 (0, j, s2.length) = 1 := by
        rw [srcCand]
        simp only [Nat.sub_zero]
        rw [hocc]
        exact sm_ratio_self h2
      rw [hcand, if_pos (by norm_num : (199/200 : ℚ) < 1)]
      rfl

/-- Witness for C7: the single character b occurs inside abc. -/
theorem claim_C7_witness :
    ((['b'] : List Char) ≠ []) ∧ ((['a', 'b', 'c'] : List Char) ≠ []) ∧
    (if (['b'] : List Char).length ≤ (['a', 'b', 'c'] : List Char).length then
      occursIn ['b'] ['a', 'b', 'c'] else occursIn ['a', 'b', 'c'] ['b']) ∧
    TF.partial_ratio ['b'] ['a', 'b', 'c'] = 100 := by
  have hlen : (['b'] : List Char).length ≤ (['a', 'b', 'c'] : List Char).length := by
    decide
  have hs : (if (['b'] : List Char).length ≤ (['a', 'b', 'c'] : List Char).length then
      occursIn ['b'] ['a', 'b', 'c'] else occursIn ['a', 'b', 'c'] ['b']) := by
    rw [if_pos hlen]
    exact ⟨1, by decide⟩
  exact ⟨by decide, by decide, hs, claim_C7 _ _ (by decide) (by decide) hs⟩

/-! ### Claim C9: all public scores lie in the range 0 to 100 -/

theorem intr_bounds_100 {q : ℚ} (h : 0 ≤ q ∧ q ≤ 100) : 0 ≤ intr q ∧ intr q ≤ 100 := by
  constructor
  · exact intr_nonneg h.1
  · apply intr_le_of_le
    push_cast
    exact h.2

theorem foldl_max_bounds : ∀ (xs : List ℚ) (x : ℚ), 0 ≤ x → x ≤ 1 →
    (∀ r ∈ xs, 0 ≤ r ∧ r ≤ 1) → 0 ≤ xs.foldl max x ∧ xs.foldl max x ≤ 1 := by
  intro xs
  induction xs with
  | nil => intro x h0 h1 _; exact ⟨h0, h1⟩
  | cons y ys ih =>
    intro x h0 h1 hall
    rw [List.foldl_cons]
    obtain ⟨hy0, hy1⟩ := hall y (List.mem_cons_self _ _)
    exact ih (max x y) (le_max_of_le_left h0) (max_le h1 hy1)
      (fun r hr => hall r (List.mem_cons_of_mem _ hr))

theorem srcCand_bounds (sh lo : List Char) (blk : Nat × Nat × Nat) :
    0 ≤ srcCand sh lo blk ∧ srcCand sh lo blk ≤ 1 :=
  ⟨sm_ratio_nonneg _ _, sm_ratio_le_one _ _⟩

theorem prLoop_bounds (sh lo : List Char) :
    ∀ (blocks : List (Nat × Nat × Nat)) (acc : List ℚ),
      (∀ r ∈ acc, 0 ≤ r ∧ r ≤ 1) →
      ∀ v, TF.prLoop sh lo blocks acc = some v → 0 ≤ v ∧ v ≤ 100 := by
  intro blocks
  induction blocks with
  | nil =>
    intro acc hacc v hv
    rw [TF.prLoop] at hv
    cases acc with
    | nil => simp [TF.maxQ] at hv
    | cons x xs =>
      simp only [TF.maxQ, Option.some.injEq] at hv
      obtain ⟨hx0, hx1⟩ := hacc x (List.mem_cons_self _ _)
      obtain ⟨hm0, hm1⟩ := foldl_max_bounds xs x hx0 hx1
        (fun r hr => hacc r (List.mem_cons_of_mem _ hr))
      rw [← hv]
      refine intr_bounds_100 ⟨by positivity, by linarith⟩
  | cons blk rest ih =>
    intro acc hacc v hv
    rw [TF.prLoop] at hv
    split_ifs at hv with hr
    · simp only [Option.some.injEq] at hv
      omega
    · refine ih (acc ++ [srcCand sh lo blk]) ?_ v hv
      intro r hrm
      rcases List.mem_append.1 hrm with hm | hm
      · exact hacc r hm
      · simp only [List.mem_singleton] at hm
        subst hm
        exact srcCand_bounds sh lo blk

theorem TF_ratio_bounds (s1 s2 : List Char) :
    0 ≤ TF.ratio s1 s2 ∧ TF.ratio s1 s2 ≤ 100 := by
  unfold TF.ratio
  split_ifs with h1 h2
  · norm_num
  · norm_num
  · constructor
    · exact intr_nonneg (mul_nonneg (by norm_num) (sm_ratio_nonneg s1 s2))
    · apply intr_le_of_le
      have := sm_ratio_le_one s1 s2
      push_cast
      linarith

theorem TF_partial_ratio_bounds (s1 s2 : List Char) :
    0 ≤ TF.partial_ratio s1 s2 ∧ TF.partial_ratio s1 s2 ≤ 100 := by
  unfold TF.partial_ratio TF.partial_ratio_opt
  split_ifs with h1 h2 h3
  · norm_num
  · norm_num
  · cases hv : TF.prLoop s1 s2 (get_matching_blocks s1 s2) [] with
    | none => simp [hv]
    | some v =>
      have hb := prLoop_bounds s1 s2 _ [] (by simp) v hv
      simpa [hv] using hb
  · cases hv : TF.prLoop s2 s1 (get_matching_blocks s2 s1) [] with
    | none => simp [hv]
    | some v =>
      have hb := prLoop_bounds s2 s1 _ [] (by simp) v hv
      simpa [hv] using hb

theorem TF_token_sort_bounds (s1 s2 : List Char) (pp : Bool) :
    0 ≤ TF.token_sort s1 s2 pp ∧ TF.token_sort s1 s2 pp ≤ 100 := by
  rw [TF.token_sort]
  cases pp
  · simpa using TF_ratio_bounds (TF.sort_tokens s1) (TF.sort_tokens s2)
  · simpa using TF_partial_ratio_bounds (TF.sort_tokens s1) (TF.sort_tokens s2)

theorem zmax3_bounds {a b c : ℤ} (ha : 0 ≤ a ∧ a ≤ 100) (hb : 0 ≤ b ∧ b ≤ 100)
    (hc : 0 ≤ c ∧ c ≤ 100) : 0 ≤ max a (max b c) ∧ max a (max b c) ≤ 100 :=
  ⟨le_trans ha.1 (le_max_left _ _), max_le ha.2 (max_le hb.2 hc.2)⟩

theorem TF_token_set_bounds (s1 s2 : List Char) (pp : Bool) :
    0 ≤ TF.token_set s1 s2 pp ∧ TF.token_set s1 s2 pp ≤ 100 := by
  cases pp
  case false =>
    simp only [TF.token_set, Bool.false_eq_true, if_false]
    split_ifs
    · norm_num
    · norm_num
    · norm_num
    · exact zmax3_bounds (TF_ratio_bounds _ _) (TF_ratio_bounds _ _)
        (TF_ratio_bounds _ _)
  case true =>
    simp only [TF.token_set, if_true]
    split_ifs
    · norm_num
    · norm_num
    · norm_num
    · exact zmax3_bounds (TF_partial_ratio_bounds _ _)
        (TF_partial_ratio_bounds _ _) (TF_partial_ratio_bounds _ _)

theorem cast_bounds_100 {x : ℤ} (hx : 0 ≤ x ∧ x ≤ 100) :
    0 ≤ (x : ℚ) ∧ (x : ℚ) ≤ 100 := by
  constructor
  · exact_mod_cast hx.1
  · exact_mod_cast hx.2

theorem qmul_scale_bounds {x c : ℚ} (hx : 0 ≤ x ∧ x ≤ 100) (hc : 0 ≤ c ∧ c ≤ 1) :
    0 ≤ x * c ∧ x * c ≤ 100 := by
  constructor
  · exact mul_nonneg hx.1 hc.1
  · calc x * c ≤ 100 * 1 := mul_le_mul hx.2 hc.2 hc.1 (by norm_num)
      _ = 100 := by norm_num

theorem qmax_bounds {a b : ℚ} (ha : 0 ≤ a ∧ a ≤ 100) (hb : 0 ≤ b ∧ b ≤ 100) :
    0 ≤ max a b ∧ max a b ≤ 100 :=
  ⟨le_trans ha.1 (le_max_left _ _), max_le ha.2 hb.2⟩

theorem scale_bounds (s1 s2 : List Char) :
    0 ≤ (if 8 < TF.lenRatio s1 s2 then (3/5 : ℚ) else 9/10) ∧
    (if 8 < TF.lenRatio s1 s2 then (3/5 : ℚ) else 9/10) ≤ 1 := by
  split_ifs <;> norm_num

theorem h19_bounds : 0 ≤ (19/20 : ℚ) ∧ (19/20 : ℚ) ≤ 1 := by norm_num

theorem TF_ptsor_bounds (s1 s2 : List Char) :
    0 ≤ TF.partial_token_sort_ratio s1 s2 ∧ TF.partial_token_sort_ratio s1 s2 ≤ 100 :=
  TF_token_sort_bounds s1 s2 true

theorem TF_tsor_bounds (s1 s2 : List Char) :
    0 ≤ TF.token_sort_ratio s1 s2 ∧ TF.token_sort_ratio s1 s2 ≤ 100 :=
  TF_token_sort_bounds s1 s2 false

theorem TF_ptser_bounds (s1 s2 : List Char) :
    0 ≤ TF.partial_token_set_ratio s1 s2 ∧ TF.partial_token_set_ratio s1 s2 ≤ 100 :=
  TF_token_set_bounds s1 s2 true

theorem TF_tser_bounds (s1 s2 : List Char) :
    0 ≤ TF.token_set_ratio s1 s2 ∧ TF.token_set_ratio s1 s2 ≤ 100 :=
  TF_token_set_bounds s1 s2 false

theorem wpartial_bounds (s1 s2 : List Char) {c : ℚ} (hc : 0 ≤ c ∧ c ≤ 1) :
    0 ≤ intr (max ((TF.ratio s1 s2 : ℚ))
        (max ((TF.partial_ratio s1 s2 : ℚ) * c)
          (max ((TF.partial_token_sort_ratio s1 s2 : ℚ) * (19/20) * c)
               ((TF.partial_token_set_ratio s1 s2 : ℚ) * (19/20) * c)))) ∧
      intr (max ((TF.ratio s1 s2 : ℚ))
        (max ((TF.partial_ratio s1 s2 : ℚ) * c)
          (max ((TF.partial_token_sort_ratio s1 s2 : ℚ) * (19/20) * c)
               ((TF.partial_token_set_ratio s1 s2 : ℚ) * (19/20) * c)))) ≤ 100 :=
  intr_bounds_100 (qmax_bounds (cast_bounds_100 (TF_ratio_bounds s1 s2))
    (qmax_bounds (qmul_scale_bounds (cast_bounds_100 (TF_partial_ratio_bounds s1 s2)) hc)
      (qmax_bounds
        (qmul_scale_bounds
          (qmul_scale_bounds (cast_bounds_100 (TF_ptsor_bounds s1 s2)) h19_bounds) hc)
        (qmul_scale_bounds
          (qmul_scale_bounds (cast_bounds_100 (TF_ptser_bounds s1 s2)) h19_bounds) hc))))

theorem TF_WRatio_bounds (s1 s2 : List Char) :
    0 ≤ TF.WRatio s1 s2 ∧ TF.WRatio s1 s2 ≤ 100 := by
  unfold TF.WRatio
  split_ifs with h1 h2 h3 h4
  · norm_num
  · norm_num
  · exact intr_bounds_100 (qmax_bounds (cast_bounds_100 (TF_ratio_bounds s1 s2))
      (qmax_bounds
        (qmul_scale_bounds (cast_bounds_100 (TF_tsor_bounds s1 s2)) h19_bounds)
        (qmul_scale_bounds (cast_bounds_100 (TF_tser_bounds s1 s2)) h19_bounds)))
  · exact @wpartial_bounds s1 s2 (3/5) ⟨by norm_num, by norm_num⟩
  · exact @wpartial_bounds s1 s2 (9/10) ⟨by norm_num, by norm_num⟩

theorem Fuzz_ratio_bounds (o1 o2 : Option (List Char)) :
    0 ≤ Fuzz.ratio o1 o2 ∧ Fuzz.ratio o1 o2 ≤ 100 := by
  cases o1 with
  | none => simp [Fuzz.ratio]
  | some a =>
    cases o2 with
    | none => simp [Fuzz.ratio]
    | some b =>
      simp only [Fuzz.ratio, intr_intCast]
      exact TF_ratio_bounds a b

theorem Fuzz_partial_ratio_bounds (o1 o2 : Option (List Char)) :
    0 ≤ Fuzz.partial_ratio o1 o2 ∧ Fuzz.partial_ratio o1 o2 ≤ 100 := by
  cases o1 with
  | none => simp [Fuzz.partial_ratio]
  | some a =>
    cases o2 with
    | none => simp [Fuzz.partial_ratio]
    | some b =>
      simp only [Fuzz.partial_ratio, intr_intCast]
      exact TF_partial_ratio_bounds a b

theorem Fuzz_token_sort_bounds (o1 o2 : Option (List Char)) (fa fp : Bool) :
    0 ≤ Fuzz.token_sort_ratio o1 o2 fa fp ∧ Fuzz.token_sort_ratio o1 o2 fa fp ≤ 100 := by
  cases o1 with
  | none => simp [Fuzz.token_sort_ratio]
  | some a =>
    cases o2 with
    | none => simp [Fuzz.token_sort_ratio]
    | some b =>
      simp only [Fuzz.token_sort_ratio, TF.token_sort_ratio, intr_intCast]
      exact TF_token_sort_bounds _ _ false

theorem Fuzz_partial_token_sort_bounds (o1 o2 : Option (List Char)) (fa fp : Bool) :
    0 ≤ Fuzz.partial_token_sort_ratio o1 o2 fa fp ∧
    Fuzz.partial_token_sort_ratio o1 o2 fa fp ≤ 100 := by
  cases o1 with
  | none => simp [Fuzz.partial_token_sort_ratio]
  | some a =>
    cases o2 with
    | none => simp [Fuzz.partial_token_sort_ratio]
    | some b =>
      simp only [Fuzz.partial_token_sort_ratio, TF.partial_token_sort_ratio, intr_intCast]
      exact TF_token_sort_bounds _ _ true

theorem Fuzz_token_set_bounds (o1 o2 : Option (List Char)) (fa fp : Bool) :
    0 ≤ Fuzz.token_set_ratio o1 o2 fa fp ∧ Fuzz.token_set_ratio o1 o2 fa fp ≤ 100 := by
  cases o1 with
  | none => simp [Fuzz.token_set_ratio]
  | some a =>
    cases o2 with
    | none => simp [Fuzz.token_set_ratio]
    | some b =>
      simp only [Fuzz.token_set_ratio, TF.token_set_ratio, intr_intCast]
      exact TF_token_set_bounds _ _ false

theorem Fuzz_partial_token_set_bounds (o1 o2 : Option (List Char)) (fa fp : Bool) :
    0 ≤ Fuzz.partial_token_set_ratio o1 o2 fa fp ∧
    Fuzz.partial_token_set_ratio o1 o2 fa fp ≤ 100 := by
  cases o1 with
  | none => simp [Fuzz.partial_token_set_ratio]
  | some a =>
    cases o2 with
    | none => simp [Fuzz.partial_token_set_ratio]
    | some b =>
      simp only [Fuzz.partial_token_set_ratio, TF.partial_token_set_ratio, intr_intCast]
      exact TF_token_set_bounds _ _ true

theorem Fuzz_QRatio_bounds (o1 o2 : Option (List Char)) (fa fp : Bool) :
    0 ≤ Fuzz.QRatio o1 o2 fa fp ∧ Fuzz.QRatio o1 o2 fa fp ≤ 100 := by
  simp only [Fuzz.QRatio]
  split_ifs
  all_goals first
    | exact Fuzz_ratio_bounds _ _
    | norm_num

theorem Fuzz_WRatio_bounds (o1 o2 : Option (List Char)) (fa fp : Bool) :
    0 ≤ Fuzz.WRatio o1 o2 fa fp ∧ Fuzz.WRatio o1 o2 fa fp ≤ 100 := by
  simp only [Fuzz.WRatio, intr_intCast]
  exact TF_WRatio_bounds _ _

/-- C9: every public scoring function returns an integer score between 0
and 100 inclusive for every pair of inputs and all flag values; in
particular 0 ≤ WRatio(s1, s2) ≤ 100. -/
theorem claim_C9 (s1 s2 : Option (List Char)) (fa fp : Bool) :
    (0 ≤ Fuzz.ratio s1 s2 ∧ Fuzz.ratio s1 s2 ≤ 100) ∧
    (0 ≤ Fuzz.partial_ratio s1 s2 ∧ Fuzz.partial_ratio s1 s2 ≤ 100) ∧
    (0 ≤ Fuzz.token_sort_ratio s1 s2 fa fp ∧ Fuzz.token_sort_ratio s1 s2 fa fp ≤ 100) ∧
    (0 ≤ Fuzz.partial_token_sort_ratio s1 s2 fa fp ∧
      Fuzz.partial_token_sort_ratio s1 s2 fa fp ≤ 100) ∧
    (0 ≤ Fuzz.token_set_ratio s1 s2 fa fp ∧ Fuzz.token_set_ratio s1 s2 fa fp ≤ 100) ∧
    (0 ≤ Fuzz.partial_token_set_ratio s1 s2 fa fp ∧
      Fuzz.partial_token_set_ratio s1 s2 fa fp ≤ 100) ∧
    (0 ≤ Fuzz.QRatio s1 s2 fa fp ∧ Fuzz.QRatio s1 s2 fa fp ≤ 100) ∧
    (0 ≤ Fuzz.UQRatio s1 s2 fp ∧ Fuzz.UQRatio s1 s2 fp ≤ 100) ∧
    (0 ≤ Fuzz.WRatio s1 s2 fa fp ∧ Fuzz.WRatio s1 s2 fa fp ≤ 100) ∧
    (0 ≤ Fuzz.UWRatio s1 s2 fp ∧ Fuzz.UWRatio s1 s2 fp ≤ 100) :=
  ⟨Fuzz_ratio_bounds s1 s2, Fuzz_partial_ratio_bounds s1 s2,
    Fuzz_token_sort_bounds s1 s2 fa fp, Fuzz_partial_token_sort_bounds s1 s2 fa fp,
    Fuzz_token_set_bounds s1 s2 fa fp, Fuzz_partial_token_set_bounds s1 s2 fa fp,
    Fuzz_QRatio_bounds s1 s2 fa fp, Fuzz_QRatio_bounds s1 s2 false fp,
    Fuzz_WRatio_bounds s1 s2 fa fp, Fuzz_WRatio_bounds s1 s2 false fp⟩

